import Mathlib

/-!  Verification of the synchronization-mechanisms repository.

Shallow embeddings of the three components:
* `TSQueue`   — the thread-safe linked queue of tsqueue.c (mutex + condition
  variable), the MonitorQueue of the spec;
* `Chan`      — the bounded circular buffer of producer_consumer.c
  (two counting semaphores + mutex), the BoundedChannel of the spec;
* `Ring`      — the dining philosophers of dining_philosophers.c / .go
  (one mutex per fork + an N−1 waiter semaphore), the ResourceRing of
  the spec.

Pure state is modelled directly; the concurrent parts are modelled as
labelled transition systems whose atomic steps are the statements of the
source between blocking points.  -/

namespace TSQueue

/-- The state of the `ThreadSafeQueue` of tsqueue.c: `mem` is the chain of
nodes reachable from the `head` pointer, each node given as
(address, value) in chain order (so the chain's first element is the node
`head` points at, `mem = []` means `head == NULL`); `tail` is the address
stored in the tail pointer (`none` for NULL). -/
structure Queue where
  mem : List (Nat × Int)
  tail : Option Nat
deriving Repr, DecidableEq

/-- `queue_init` (tsqueue.c lines 30–34): `head = tail = NULL`. -/
def queue_init : Queue := { mem := [], tail := none }

/-- `enqueue` (tsqueue.c lines 37–57): allocate a fresh node at address `a`
holding `item` with `next = NULL`; under the lock, if the tail pointer is
NULL then head and tail both point at the new node, otherwise the node is
linked after the current tail node and the tail pointer moves to it. -/
def enqueue (q : Queue) (a : Nat) (item : Int) : Queue :=
  match q.tail with
  | none => { mem := [(a, item)], tail := some a }
  | some _ => { mem := q.mem ++ [(a, item)], tail := some a }

/-- One completed pass of the body of `dequeue` (tsqueue.c lines 60–76) by a
thread holding the lock: if `head == NULL` the thread must wait on the
condition variable (result `none`); otherwise it reads the head node's
value, advances `head` to the next node, sets `tail` to NULL when the chain
became empty, and frees the old head node. -/
def dequeueStep (q : Queue) : Option (Int × Queue) :=
  match q.mem with
  | [] => none
  | (_, v) :: rest =>
      some (v, { mem := rest, tail := if rest.isEmpty then none else q.tail })

/-- The `while (q->head == NULL) pthread_cond_wait(...)` loop of `dequeue`:
the waiting thread is woken some number of times and observes the queue
state at each wakeup (other threads may change the queue in between); each
wakeup re-checks the emptiness predicate, and the call completes at the
first wakeup at which the chain is non-empty.  `none` means the thread is
still blocked after all listed wakeups. -/
def dequeueWait : List Queue → Option (Int × Queue)
  | [] => none
  | q :: qs =>
      match dequeueStep q with
      | some r => some r
      | none => dequeueWait qs

/-- Strengthened representation invariant: the tail pointer holds the
address of the last node of the chain (NULL when the chain is empty). -/
def tailInv (q : Queue) : Prop := q.tail = q.mem.getLast?.map Prod.fst

/-- The representation invariant of the claim: `head` is NULL iff `tail` is
NULL, and when exactly one node is present `head` and `tail` hold the same
address. -/
def headTailInv (q : Queue) : Prop :=
  (q.mem = [] ↔ q.tail = none) ∧ ∀ a v, q.mem = [(a, v)] → q.tail = some a

/-- An operation applied to the queue by some thread. -/
inductive QOp where
  | enq (a : Nat) (v : Int)
  | deq
deriving Repr, DecidableEq

/-- Apply one operation; a dequeue on an empty queue blocks in the wait
loop and leaves the state unchanged. -/
def applyOp (q : Queue) : QOp → Queue
  | .enq a v => enqueue q a v
  | .deq =>
      match dequeueStep q with
      | none => q
      | some (_, q') => q'

/-- Apply a sequence of operations in order. -/
def applyOps (q : Queue) : List QOp → Queue
  | [] => q
  | op :: ops => applyOps (applyOp q op) ops

/-- Enqueue a list of (address, value) pairs in order. -/
def enqueueAll (q : Queue) : List (Nat × Int) → Queue
  | [] => q
  | (a, v) :: items => enqueueAll (enqueue q a v) items

/-- Values returned by `n` successive dequeues by a single consumer
(stopping early if the queue runs dry). -/
def drainN : Nat → Queue → List Int
  | 0, _ => []
  | n + 1, q =>
      match dequeueStep q with
      | none => []
      | some (v, q') => v :: drainN n q'

end TSQueue

namespace Chan

/-- Parameters of a run of producer_consumer.c (read in main, lines 101–104):
number of producer threads, number of consumer threads, the buffer size,
and the items each producer produces. -/
structure Params where
  nprod : Nat
  ncons : Nat
  cap : Nat
  items : Nat
deriving Repr, DecidableEq

/-- Program counter of a producer thread (producer, lines 47–65), cut at the
statements touching shared state:
* `idle` — at the top of the for-loop;
* `hasItem v` — `item = produce_item()` returned `v`; about to
  `sem_wait(&empty_slots)`;
* `waited v` — decremented `empty_slots`; about to lock `mutex_buffer`;
* `inCS v` — holds the mutex; about to do `buffer[in] = item` and
  `in = (in + 1) % buffer_size`;
* `written` — wrote and advanced the cursor; about to unlock;
* `signal` — released the mutex; about to `sem_post(&full_slots)`. -/
inductive PPc where
  | idle
  | hasItem (v : Int)
  | waited (v : Int)
  | inCS (v : Int)
  | written
  | signal
deriving Repr, DecidableEq

/-- A producer thread's state: program counter and items still to produce
(the remaining iterations of its for-loop). -/
structure PState where
  pc : PPc
  rem : Nat
deriving Repr, DecidableEq

/-- Program counter of a consumer thread (consumer, lines 67–91), which loops
forever:
* `idle` — at the top of the while-loop; about to `sem_wait(&full_slots)`;
* `waited` — decremented `full_slots`; about to lock `mutex_buffer`;
* `inCS` — holds the mutex; about to do `item = buffer[out]` and
  `out = (out + 1) % buffer_size`;
* `gotItem v` — read `v` and advanced the cursor; about to unlock;
* `signal v` — released the mutex; about to `sem_post(&empty_slots)`. -/
inductive CPc where
  | idle
  | waited
  | inCS
  | gotItem (v : Int)
  | signal (v : Int)
deriving Repr, DecidableEq

/-- A global state of the program: the circular buffer and its two cursors,
the two semaphore counts, the mutex, and every thread's local state. -/
structure Config where
  buf : Nat → Int
  inI : Nat
  outI : Nat
  empty : Nat
  full : Nat
  mtx : Bool
  prod : Nat → PState
  cons : Nat → CPc

/-- The initial state built by main (lines 106–143): `in = out = 0`,
`sem_init(&empty_slots, 0, buffer_size)`, `sem_init(&full_slots, 0, 0)`,
mutex free, every producer at the top of its loop with `items_per_producer`
iterations to go, every consumer at the top of its loop. -/
def init (P : Params) : Config where
  buf := fun _ => 0
  inI := 0
  outI := 0
  empty := P.cap
  full := 0
  mtx := false
  prod := fun _ => { pc := .idle, rem := P.items }
  cons := fun _ => .idle

/-- One atomic step of the system: a statement of producer (lines 47–65) or
consumer (lines 67–91) touching shared state, executed by thread `i`.
`produce_item()` returns `rand() % 1000`, modelled as a nondeterministically
chosen value `v`.  `sem_wait` is enabled only when the semaphore's count is
positive (otherwise the thread blocks), `pthread_mutex_lock` only when the
mutex is free. -/
inductive Step (P : Params) : Config → Config → Prop where
  | pProduce (s : Config) (i : Nat) (v : Int) (r : Nat) :
      i < P.nprod → s.prod i = { pc := .idle, rem := r } → 0 < r →
      Step P s { s with prod := Function.update s.prod i { pc := .hasItem v, rem := r } }
  | pWaitEmpty (s : Config) (i : Nat) (v : Int) (r : Nat) :
      i < P.nprod → s.prod i = { pc := .hasItem v, rem := r } → 0 < s.empty →
      Step P s { s with empty := s.empty - 1,
                        prod := Function.update s.prod i { pc := .waited v, rem := r } }
  | pLock (s : Config) (i : Nat) (v : Int) (r : Nat) :
      i < P.nprod → s.prod i = { pc := .waited v, rem := r } → s.mtx = false →
      Step P s { s with mtx := true,
                        prod := Function.update s.prod i { pc := .inCS v, rem := r } }
  | pWrite (s : Config) (i : Nat) (v : Int) (r : Nat) :
      i < P.nprod → s.prod i = { pc := .inCS v, rem := r } →
      Step P s { s with buf := Function.update s.buf s.inI v,
                        inI := (s.inI + 1) % P.cap,
                        prod := Function.update s.prod i { pc := .written, rem := r } }
  | pUnlock (s : Config) (i : Nat) (r : Nat) :
      i < P.nprod → s.prod i = { pc := .written, rem := r } →
      Step P s { s with mtx := false,
                        prod := Function.update s.prod i { pc := .signal, rem := r } }
  | pPostFull (s : Config) (i : Nat) (r : Nat) :
      i < P.nprod → s.prod i = { pc := .signal, rem := r } →
      Step P s { s with full := s.full + 1,
                        prod := Function.update s.prod i { pc := .idle, rem := r - 1 } }
  | cWaitFull (s : Config) (j : Nat) :
      j < P.ncons → s.cons j = .idle → 0 < s.full →
      Step P s { s with full := s.full - 1,
                        cons := Function.update s.cons j .waited }
  | cLock (s : Config) (j : Nat) :
      j < P.ncons → s.cons j = .waited → s.mtx = false →
      Step P s { s with mtx := true,
                        cons := Function.update s.cons j .inCS }
  | cRead (s : Config) (j : Nat) :
      j < P.ncons → s.cons j = .inCS →
      Step P s { s with outI := (s.outI + 1) % P.cap,
                        cons := Function.update s.cons j (.gotItem (s.buf s.outI)) }
  | cUnlock (s : Config) (j : Nat) (v : Int) :
      j < P.ncons → s.cons j = .gotItem v →
      Step P s { s with mtx := false,
                        cons := Function.update s.cons j (.signal v) }
  | cPostEmpty (s : Config) (j : Nat) (v : Int) :
      j < P.ncons → s.cons j = .signal v →
      Step P s { s with empty := s.empty + 1,
                        cons := Function.update s.cons j .idle }

/-- The reachable states of a run with parameters `P`. -/
def Reachable (P : Params) (s : Config) : Prop :=
  Relation.ReflTransGen (Step P) (init P) s

/-- 1 when a producer is between its `sem_wait(&empty_slots)` and its
`sem_post(&full_slots)` (a put in progress), else 0. -/
def pInflight : PPc → Nat
  | .waited _ => 1
  | .inCS _ => 1
  | .written => 1
  | .signal => 1
  | _ => 0

/-- 1 when a consumer is between its `sem_wait(&full_slots)` and its
`sem_post(&empty_slots)` (a take in progress), else 0. -/
def cInflight : CPc → Nat
  | .waited => 1
  | .inCS => 1
  | .gotItem _ => 1
  | .signal _ => 1
  | _ => 0

/-- The number of puts and takes in progress: operations past their
semaphore decrement but not yet at their semaphore increment. -/
def inflight (P : Params) (s : Config) : Nat :=
  (∑ i ∈ Finset.range P.nprod, pInflight (s.prod i).pc) +
    (∑ j ∈ Finset.range P.ncons, cInflight (s.cons j))

end Chan

namespace Ring

/-- Program counter of a philosopher thread (philosopher,
dining_philosophers.c lines 43–77), cut at the statements touching shared
state within one iteration of its for-loop:
* `think` — about to call think(id) (line 50);
* `waitG` — about to `sem_wait(&waiter)` (line 53);
* `lock1` — holds a waiter ticket; about to lock the first fork (lower
  index, lines 56–62);
* `lock2` — about to lock the second fork (higher index);
* `eatSt` — holds both forks; about to call eat(id, i) (line 65);
* `rel1` — about to unlock `forks[left]` (line 68);
* `rel2` — about to unlock `forks[right]` (line 69);
* `post` — about to `sem_post(&waiter)` (line 72);
* `done` — left the for-loop (line 75). -/
inductive PC where
  | think
  | waitG
  | lock1
  | lock2
  | eatSt
  | rel1
  | rel2
  | post
  | done
deriving Repr, DecidableEq

/-- A philosopher's thread-local state: program counter and the loop
variable `i` (completed cycles). -/
structure Agent where
  pc : PC
  cyc : Nat
deriving Repr, DecidableEq

/-- Left fork index of philosopher `a` (line 46): `left = id`. -/
def leftF (a : Nat) : Nat := a

/-- Right fork index of philosopher `a` (line 47): `right = (id+1) % N`. -/
def rightF (N a : Nat) : Nat := (a + 1) % N

/-- The fork locked first (lines 56–62): `left` when `left < right`,
otherwise `right`. -/
def fork1 (N a : Nat) : Nat :=
  if leftF a < rightF N a then leftF a else rightF N a

/-- The fork locked second (lines 56–62): the other one. -/
def fork2 (N a : Nat) : Nat :=
  if leftF a < rightF N a then rightF N a else leftF a

/-- A global state of the program: the waiter semaphore's count, each
fork mutex's owner (`none` = unlocked; fork indices `0..N-1`), and each
philosopher's thread state (indices `0..N-1`). -/
structure Config where
  waiter : Nat
  forks : Nat → Option Nat
  ag : Nat → Agent

/-- The initial state built by main (lines 92–110): every fork mutex free,
`sem_init(&waiter, 0, num_philosophers - 1)`, and every philosopher thread
at the top of its for-loop (directly `done` when `cycles_per_philosopher`
is 0, since the loop body never runs). -/
def init (N cycles : Nat) : Config where
  waiter := N - 1
  forks := fun _ => none
  ag := fun _ => { pc := if 0 < cycles then .think else .done, cyc := 0 }

/-- One atomic step: a statement of philosopher (lines 43–77) touching
shared state, executed by philosopher `a`.  `sem_wait(&waiter)` is enabled
only when the count is positive, `pthread_mutex_lock(&forks[f])` only when
fork `f` is unlocked. -/
inductive Step (N cycles : Nat) : Config → Config → Prop where
  | think (s : Config) (a c : Nat) :
      a < N → s.ag a = { pc := .think, cyc := c } →
      Step N cycles s { s with ag := Function.update s.ag a { pc := .waitG, cyc := c } }
  | waitG (s : Config) (a c : Nat) :
      a < N → s.ag a = { pc := .waitG, cyc := c } → 0 < s.waiter →
      Step N cycles s { s with waiter := s.waiter - 1,
                               ag := Function.update s.ag a { pc := .lock1, cyc := c } }
  | lock1 (s : Config) (a c : Nat) :
      a < N → s.ag a = { pc := .lock1, cyc := c } → s.forks (fork1 N a) = none →
      Step N cycles s { s with forks := Function.update s.forks (fork1 N a) (some a),
                               ag := Function.update s.ag a { pc := .lock2, cyc := c } }
  | lock2 (s : Config) (a c : Nat) :
      a < N → s.ag a = { pc := .lock2, cyc := c } → s.forks (fork2 N a) = none →
      Step N cycles s { s with forks := Function.update s.forks (fork2 N a) (some a),
                               ag := Function.update s.ag a { pc := .eatSt, cyc := c } }
  | eatSt (s : Config) (a c : Nat) :
      a < N → s.ag a = { pc := .eatSt, cyc := c } →
      Step N cycles s { s with ag := Function.update s.ag a { pc := .rel1, cyc := c } }
  | rel1 (s : Config) (a c : Nat) :
      a < N → s.ag a = { pc := .rel1, cyc := c } →
      Step N cycles s { s with forks := Function.update s.forks (leftF a) none,
                               ag := Function.update s.ag a { pc := .rel2, cyc := c } }
  | rel2 (s : Config) (a c : Nat) :
      a < N → s.ag a = { pc := .rel2, cyc := c } →
      Step N cycles s { s with forks := Function.update s.forks (rightF N a) none,
                               ag := Function.update s.ag a { pc := .post, cyc := c } }
  | post (s : Config) (a c : Nat) :
      a < N → s.ag a = { pc := .post, cyc := c } →
      Step N cycles s { s with waiter := s.waiter + 1,
                               ag := Function.update s.ag a
                                 (if c + 1 < cycles then { pc := .think, cyc := c + 1 }
                                  else { pc := .done, cyc := c + 1 }) }

/-- The reachable states of a run with `N` philosophers and
`cycles` cycles each. -/
def Reachable (N cycles : Nat) (s : Config) : Prop :=
  Relation.ReflTransGen (Step N cycles) (init N cycles) s

/-- 1 when the philosopher is inside the admission phase — between its
`sem_wait(&waiter)` and its `sem_post(&waiter)` — else 0. -/
def ticketHeld : PC → Nat
  | .lock1 => 1
  | .lock2 => 1
  | .eatSt => 1
  | .rel1 => 1
  | .rel2 => 1
  | .post => 1
  | _ => 0

/-- How many philosophers currently hold a waiter ticket (are inside the
acquisition phase). -/
def admitted (N : Nat) (s : Config) : Nat :=
  ∑ a ∈ Finset.range N, ticketHeld (s.ag a).pc

/-- Which forks a philosopher holds at each point of its program: the first
fork from the moment it is locked until `forks[left]` is unlocked, the
second fork from the moment it is locked until then, and (between the two
unlocks) just the right fork. -/
def HoldsF (N a : Nat) (pc : PC) (f : Nat) : Prop :=
  (f = fork1 N a ∧ (pc = .lock2 ∨ pc = .eatSt ∨ pc = .rel1)) ∨
    (f = fork2 N a ∧ (pc = .eatSt ∨ pc = .rel1)) ∨
    (f = rightF N a ∧ pc = .rel2)

/-- The inductive invariant of the ring. -/
structure Inv (N cycles : Nat) (s : Config) : Prop where
  waiter_eq : s.waiter + admitted N s = N - 1
  owner_holds : ∀ f b, s.forks f = some b → b < N ∧ HoldsF N b (s.ag b).pc f
  holds_owner : ∀ b, b < N → ∀ f, HoldsF N b (s.ag b).pc f → s.forks f = some b
  cyc_lt : ∀ a, a < N → (s.ag a).pc ≠ .done → (s.ag a).cyc < cycles

/-- Position of a program counter within one loop iteration, for the
termination measure. -/
def pcNum : PC → Nat
  | .think => 0
  | .waitG => 1
  | .lock1 => 2
  | .lock2 => 3
  | .eatSt => 4
  | .rel1 => 5
  | .rel2 => 6
  | .post => 7
  | .done => 8

/-- Steps a philosopher still has ahead of it. -/
def agMeasure (cycles : Nat) (g : Agent) : Nat :=
  if g.pc = .done then 0 else (cycles - g.cyc) * 8 - pcNum g.pc

/-- Total remaining work: strictly decreases at every step of the system. -/
def sysMeasure (N cycles : Nat) (s : Config) : Nat :=
  ∑ a ∈ Finset.range N, agMeasure cycles (s.ag a)

end Ring

namespace Cli

/-- The construction-time validation of producer_consumer.c's main
(lines 94–99): the program aborts before creating any thread iff the
argument count differs from 5 (program name plus four parameters); the
parsed numbers themselves are never checked. -/
def chanArgsOk (argc : Nat) : Bool := argc == 5

/-- The construction-time validation of dining_philosophers.c's main
(lines 80–85): abort iff the argument count differs from 3. -/
def ringArgsOk (argc : Nat) : Bool := argc == 3

/-- The construction-time validation of tsqueue.c's main (lines 133–136):
abort iff the argument count differs from 4. -/
def queueArgsOk (argc : Nat) : Bool := argc == 4

end Cli

namespace Chan

/-- The order claim C1 states for a `put`, as a predicate on one step of
producer `i` (to be compared with the `Step` relation derived from the
source): from each stage, the next operation and its effect on the shared
state.  Decrement `emptySlots` (blocking if zero), acquire the mutex, write
at the write cursor and advance it modulo the capacity, release the mutex,
then increment `fullSlots`; nothing else changes. -/
def putOrderSpec (P : Params) (s s' : Config) (i : Nat) : Prop :=
  match s.prod i with
  | { pc := .idle, rem := r } =>
      (∃ v, s'.prod i = { pc := .hasItem v, rem := r }) ∧ 0 < r ∧
        s'.empty = s.empty ∧ s'.full = s.full ∧ s'.mtx = s.mtx ∧
        s'.buf = s.buf ∧ s'.inI = s.inI ∧ s'.outI = s.outI
  | { pc := .hasItem v, rem := r } =>
      s'.prod i = { pc := .waited v, rem := r } ∧ 0 < s.empty ∧
        s'.empty + 1 = s.empty ∧ s'.full = s.full ∧ s'.mtx = s.mtx ∧
        s'.buf = s.buf ∧ s'.inI = s.inI ∧ s'.outI = s.outI
  | { pc := .waited v, rem := r } =>
      s'.prod i = { pc := .inCS v, rem := r } ∧ s.mtx = false ∧ s'.mtx = true ∧
        s'.empty = s.empty ∧ s'.full = s.full ∧
        s'.buf = s.buf ∧ s'.inI = s.inI ∧ s'.outI = s.outI
  | { pc := .inCS v, rem := r } =>
      s'.prod i = { pc := .written, rem := r } ∧
        s'.buf = Function.update s.buf s.inI v ∧ s'.inI = (s.inI + 1) % P.cap ∧
        s'.mtx = s.mtx ∧ s'.empty = s.empty ∧ s'.full = s.full ∧ s'.outI = s.outI
  | { pc := .written, rem := r } =>
      s'.prod i = { pc := .signal, rem := r } ∧ s'.mtx = false ∧
        s'.empty = s.empty ∧ s'.full = s.full ∧
        s'.buf = s.buf ∧ s'.inI = s.inI ∧ s'.outI = s.outI
  | { pc := .signal, rem := r } =>
      s'.prod i = { pc := .idle, rem := r - 1 } ∧ s'.full = s.full + 1 ∧
        s'.empty = s.empty ∧ s'.mtx = s.mtx ∧
        s'.buf = s.buf ∧ s'.inI = s.inI ∧ s'.outI = s.outI

/-- The mirror order claim C1 states for a `take`, as a predicate on one
step of consumer `j`: decrement `fullSlots` (blocking if zero), acquire the
mutex, read at the read cursor and advance it modulo the capacity, release
the mutex, then increment `emptySlots`; nothing else changes. -/
def takeOrderSpec (P : Params) (s s' : Config) (j : Nat) : Prop :=
  match s.cons j with
  | .idle =>
      s'.cons j = .waited ∧ 0 < s.full ∧ s'.full + 1 = s.full ∧
        s'.empty = s.empty ∧ s'.mtx = s.mtx ∧
        s'.buf = s.buf ∧ s'.inI = s.inI ∧ s'.outI = s.outI
  | .waited =>
      s'.cons j = .inCS ∧ s.mtx = false ∧ s'.mtx = true ∧
        s'.empty = s.empty ∧ s'.full = s.full ∧
        s'.buf = s.buf ∧ s'.inI = s.inI ∧ s'.outI = s.outI
  | .inCS =>
      s'.cons j = .gotItem (s.buf s.outI) ∧ s'.outI = (s.outI + 1) % P.cap ∧
        s'.buf = s.buf ∧ s'.mtx = s.mtx ∧
        s'.empty = s.empty ∧ s'.full = s.full ∧ s'.inI = s.inI
  | .gotItem v =>
      s'.cons j = .signal v ∧ s'.mtx = false ∧
        s'.empty = s.empty ∧ s'.full = s.full ∧
        s'.buf = s.buf ∧ s'.inI = s.inI ∧ s'.outI = s.outI
  | .signal _ =>
      s'.cons j = .idle ∧ s'.empty = s.empty + 1 ∧ s'.full = s.full ∧
        s'.mtx = s.mtx ∧ s'.buf = s.buf ∧ s'.inI = s.inI ∧ s'.outI = s.outI

end Chan

namespace Chan

/-- The run refuting C6 as stated: capacity 1, one producer, one consumer,
one item per producer. -/
def cexParams : Params := { nprod := 1, ncons := 1, cap := 1, items := 1 }

/-- After the producer's `produce_item()`: it holds item 5, nothing shared
has changed. -/
def cexMid1 : Config :=
  { init cexParams with
      prod := Function.update (init cexParams).prod 0 { pc := .hasItem 5, rem := 1 } }

/-- After the producer's `sem_wait(&empty_slots)`: a put is in progress and
`empty_slots` has been decremented, `full_slots` not yet incremented. -/
def cexMid2 : Config :=
  { cexMid1 with
      empty := cexMid1.empty - 1,
      prod := Function.update cexMid1.prod 0 { pc := .waited 5, rem := 1 } }

/-- The invalid configuration refuting C8: capacity 0 (non-positive), one
producer and one consumer; the CLI layer passes it through unchecked. -/
def zeroCapParams : Params := { nprod := 1, ncons := 1, cap := 0, items := 1 }

/-- A worker-thread step taken under the invalid configuration. -/
def zeroCapAfter : Config :=
  { init zeroCapParams with
      prod := Function.update (init zeroCapParams).prod 0 { pc := .hasItem 7, rem := 1 } }

end Chan

namespace Ring

/-- All philosophers have left their for-loops (line 75 reached with the
loop exhausted). -/
def AllDone (N : Nat) (s : Config) : Prop := ∀ a, a < N → (s.ag a).pc = PC.done

end Ring

/-- Splitting a sum over `Finset.range n` at an updated index. -/
theorem sum_update_range {α : Type} {n i : Nat} (hi : i < n) (f : Nat → α)
    (g : α → Nat) (v : α) :
    g (f i) + ∑ k ∈ Finset.range n, g (Function.update f i v k) =
      g v + ∑ k ∈ Finset.range n, g (f k) := by
  have hmem : i ∈ Finset.range n := Finset.mem_range.mpr hi
  rw [← Finset.add_sum_erase _ (fun k => g (Function.update f i v k)) hmem,
    ← Finset.add_sum_erase _ (fun k => g (f k)) hmem]
  have h1 : g (Function.update f i v i) = g v := by rw [Function.update_same]
  have h2 : ∀ k ∈ (Finset.range n).erase i,
      g (Function.update f i v k) = g (f k) := by
    intro k hk
    rw [Function.update_noteq (Finset.ne_of_mem_erase hk)]
  rw [h1, Finset.sum_congr rfl h2]
  omega

namespace TSQueue

theorem tailInv_init : tailInv queue_init := rfl

theorem mem_enqueue {q : Queue} (h : tailInv q) (a : Nat) (v : Int) :
    (enqueue q a v).mem = q.mem ++ [(a, v)] := by
  unfold enqueue
  cases htail : q.tail with
  | none =>
      have h0 : q.mem.getLast?.map Prod.fst = none := by rw [← h, htail]
      have hmem : q.mem = [] := by
        rw [← List.getLast?_eq_none_iff]
        exact Option.map_eq_none'.mp h0
      simp [hmem]
  | some t => simp

theorem tailInv_enqueue {q : Queue} (h : tailInv q) (a : Nat) (v : Int) :
    tailInv (enqueue q a v) := by
  have hmem := mem_enqueue h a v
  unfold tailInv
  rw [hmem]
  have hlast : (q.mem ++ [(a, v)]).getLast? = some (a, v) := List.getLast?_concat _
  rw [hlast]
  unfold enqueue
  cases q.tail <;> simp

theorem tailInv_dequeue {q : Queue} {v : Int} {q' : Queue} (h : tailInv q)
    (hd : dequeueStep q = some (v, q')) : tailInv q' := by
  unfold dequeueStep at hd
  cases hm : q.mem with
  | nil => rw [hm] at hd; simp at hd
  | cons x rest =>
      obtain ⟨b, w⟩ := x
      rw [hm] at hd
      simp only [Option.some.injEq, Prod.mk.injEq] at hd
      obtain ⟨hv, hq⟩ := hd
      subst hq
      unfold tailInv
      cases hr : rest with
      | nil => simp [hr]
      | cons y ys =>
          simp only [hr, List.isEmpty_cons, if_false]
          rw [h, hm, hr]
          simp [List.getLast?_cons_cons]

theorem headTailInv_of_tailInv {q : Queue} (h : tailInv q) : headTailInv q := by
  constructor
  · constructor
    · intro hm; rw [h, hm]; rfl
    · intro ht
      rw [h] at ht
      rw [← List.getLast?_eq_none_iff]
      exact Option.map_eq_none'.mp ht
  · intro a v hm
    rw [h, hm]
    rfl

theorem tailInv_applyOp {q : Queue} (h : tailInv q) (op : QOp) :
    tailInv (applyOp q op) := by
  cases op with
  | enq a v => exact tailInv_enqueue h a v
  | deq =>
      unfold applyOp
      cases hd : dequeueStep q with
      | none => exact h
      | some r => exact tailInv_dequeue h (by rw [hd])

theorem tailInv_applyOps {q : Queue} (h : tailInv q) (ops : List QOp) :
    tailInv (applyOps q ops) := by
  induction ops generalizing q with
  | nil => exact h
  | cons op ops ih => exact ih (tailInv_applyOp h op)

theorem mem_enqueueAll {q : Queue} (h : tailInv q) (items : List (Nat × Int)) :
    (enqueueAll q items).mem = q.mem ++ items := by
  induction items generalizing q with
  | nil => simp [enqueueAll]
  | cons x items ih =>
      obtain ⟨a, v⟩ := x
      have := ih (tailInv_enqueue h a v)
      rw [enqueueAll, this, mem_enqueue h a v]
      simp

theorem drainN_of_mem (l : List (Nat × Int)) :
    ∀ q : Queue, q.mem = l → drainN l.length q = l.map Prod.snd := by
  induction l with
  | nil => intro q _; simp [drainN]
  | cons x rest ih =>
      intro q hm
      obtain ⟨a, v⟩ := x
      have step : dequeueStep q =
          some (v, { mem := rest, tail := if rest.isEmpty then none else q.tail }) := by
        unfold dequeueStep; rw [hm]
      simp only [List.length_cons, List.map_cons]
      rw [drainN, step]
      simp only []
      rw [ih { mem := rest, tail := if rest.isEmpty then none else q.tail } rfl]

theorem drainN_mem (q : Queue) : drainN q.mem.length q = q.mem.map Prod.snd :=
  drainN_of_mem q.mem q rfl

end TSQueue

namespace TSQueue

theorem tailInv_enqueueAll {q : Queue} (h : tailInv q) (items : List (Nat × Int)) :
    tailInv (enqueueAll q items) := by
  induction items generalizing q with
  | nil => exact h
  | cons x items ih =>
      obtain ⟨a, v⟩ := x
      exact ih (tailInv_enqueue h a v)

/-- C2: for the MonitorQueue with a single consumer, the sequence of values
returned by dequeue equals the sequence of values passed to enqueue, in the
same order: enqueue a list, then dequeue the same list back. -/
theorem fifo_enqueue_dequeue :
    ∀ items : List (Nat × Int),
      drainN items.length (enqueueAll queue_init items) = items.map Prod.snd := by
  intro items
  have hmem : (enqueueAll queue_init items).mem = items := by
    simpa using mem_enqueueAll tailInv_init items
  exact drainN_of_mem items _ hmem

/-- C5: dequeue blocks while the chain is empty, re-checking the non-empty
predicate at every condition-variable wakeup — after any number of wakeups
a dequeuer proceeds only from an observed state in which an item is
actually present — and on exit returns the element at the head of the
chain, removing it. -/
theorem dequeue_blocks_rechecks_returns_head :
    (∀ q : Queue, dequeueStep q = none ↔ q.mem = []) ∧
    (∀ (q : Queue) (qs : List Queue), q.mem = [] →
        dequeueWait (q :: qs) = dequeueWait qs) ∧
    (∀ (qs : List Queue) (v : Int) (q' : Queue),
        dequeueWait qs = some (v, q') →
        ∃ q ∈ qs, q.mem ≠ [] ∧ dequeueStep q = some (v, q')) ∧
    (∀ (q : Queue) (a : Nat) (v : Int) (rest : List (Nat × Int)),
        q.mem = (a, v) :: rest →
        dequeueStep q =
          some (v, { mem := rest, tail := if rest.isEmpty then none else q.tail })) := by
  refine ⟨?_, ?_, ?_, ?_⟩
  · intro q
    unfold dequeueStep
    cases q.mem with
    | nil => simp
    | cons x rest => obtain ⟨a, v⟩ := x; simp
  · intro q qs hq
    have hnone : dequeueStep q = none := by unfold dequeueStep; rw [hq]
    simp only [dequeueWait, hnone]
  · intro qs
    induction qs with
    | nil => intro v q' h; simp [dequeueWait] at h
    | cons q qs ih =>
        intro v q' h
        cases hd : dequeueStep q with
        | none =>
            simp only [dequeueWait, hd] at h
            obtain ⟨w, hw, h1, h2⟩ := ih v q' h
            exact ⟨w, by simp [hw], h1, h2⟩
        | some r =>
            simp only [dequeueWait, hd] at h
            refine ⟨q, by simp, ?_, by rw [hd, h]⟩
            intro hmem
            unfold dequeueStep at hd
            rw [hmem] at hd
            exact Option.noConfusion hd
  · intro q a v rest hq
    unfold dequeueStep
    rw [hq]

/-- C7 (the defect the claim describes): the queue has no closed state — a
consumer blocked in dequeue on the empty (drained) queue stays blocked no
matter how many times it is woken, instead of receiving a distinguished
empty-result, and enqueue has no failure path: it always appends a node. -/
theorem no_closed_state :
    (∀ n : Nat, dequeueWait (List.replicate n queue_init) = none) ∧
    (∀ (q : Queue) (a : Nat) (v : Int), (enqueue q a v).mem ≠ []) := by
  constructor
  · intro n
    induction n with
    | zero => rfl
    | succ n ih => simpa [List.replicate_succ, dequeueWait, dequeueStep, queue_init] using ih
  · intro q a v
    unfold enqueue
    cases q.tail <;> simp

/-- C10: the representation invariant — head is NULL iff tail is NULL, and
with exactly one node head and tail point at the same node — holds after
queue_init and is maintained through every sequence of enqueue and dequeue
operations (each preserving the strengthened invariant that tail points at
the last node of the chain). -/
theorem queue_rep_invariant :
    headTailInv queue_init ∧
    (∀ ops : List QOp, headTailInv (applyOps queue_init ops)) ∧
    (∀ (q : Queue) (a : Nat) (v : Int), tailInv q → headTailInv (enqueue q a v)) ∧
    (∀ (q : Queue) (v : Int) (q' : Queue), tailInv q →
        dequeueStep q = some (v, q') → headTailInv q') := by
  refine ⟨headTailInv_of_tailInv tailInv_init, ?_, ?_, ?_⟩
  · intro ops
    exact headTailInv_of_tailInv (tailInv_applyOps tailInv_init ops)
  · intro q a v h
    exact headTailInv_of_tailInv (tailInv_enqueue h a v)
  · intro q v q' h hd
    exact headTailInv_of_tailInv (tailInv_dequeue h hd)

end TSQueue

namespace Chan

/-- `sum_update_range` specialised to the producer in-flight count. -/
theorem sum_update_pInflight {n i : Nat} (hi : i < n) (f : Nat → PState) (v : PState) :
    pInflight (f i).pc + ∑ k ∈ Finset.range n, pInflight (Function.update f i v k).pc =
      pInflight v.pc + ∑ k ∈ Finset.range n, pInflight (f k).pc := by
  simpa using sum_update_range hi f (fun p => pInflight p.pc) v

/-- `sum_update_range` specialised to the consumer in-flight count. -/
theorem sum_update_cInflight {n j : Nat} (hj : j < n) (f : Nat → CPc) (v : CPc) :
    cInflight (f j) + ∑ k ∈ Finset.range n, cInflight (Function.update f j v k) =
      cInflight v + ∑ k ∈ Finset.range n, cInflight (f k) :=
  sum_update_range hj f cInflight v

end Chan

namespace Chan

/-- C1: every put and every take performs its operations in exactly the
claimed order.  Whenever a step of the system changes producer `i`'s local
state, that step is the producer's next operation in the order
`decrement emptySlots (blocking if zero) → lock mutex → write at writeIndex
and advance it mod capacity → unlock mutex → increment fullSlots`, with
exactly the claimed effect on the shared state; and symmetrically, whenever
a step changes consumer `j`'s local state it follows the mirror order
`decrement fullSlots → lock → read at readIndex and advance it mod capacity
→ unlock → increment emptySlots`. -/
theorem put_take_order :
    (∀ (P : Params) (s s' : Config) (i : Nat),
        Step P s s' → s'.prod i ≠ s.prod i → putOrderSpec P s s' i) ∧
    (∀ (P : Params) (s s' : Config) (j : Nat),
        Step P s s' → s'.cons j ≠ s.cons j → takeOrderSpec P s s' j) := by
  constructor
  · intro P s s' i hstep hmv
    cases hstep with
    | pProduce i0 v r hi hpc hr =>
        rcases eq_or_ne i0 i with he | he
        · subst he
          simp only [putOrderSpec, hpc, Function.update_same]
          exact ⟨⟨v, rfl⟩, hr, trivial, trivial, trivial, trivial, trivial, trivial⟩
        · exact absurd (Function.update_noteq (Ne.symm he) _ _) hmv
    | pWaitEmpty i0 v r hi hpc hemp =>
        rcases eq_or_ne i0 i with he | he
        · subst he
          simp only [putOrderSpec, hpc, Function.update_same]
          exact ⟨trivial, hemp, by omega, trivial, trivial, trivial, trivial, trivial⟩
        · exact absurd (Function.update_noteq (Ne.symm he) _ _) hmv
    | pLock i0 v r hi hpc hm =>
        rcases eq_or_ne i0 i with he | he
        · subst he
          simp only [putOrderSpec, hpc, Function.update_same]
          exact ⟨trivial, hm, trivial, trivial, trivial, trivial, trivial, trivial⟩
        · exact absurd (Function.update_noteq (Ne.symm he) _ _) hmv
    | pWrite i0 v r hi hpc =>
        rcases eq_or_ne i0 i with he | he
        · subst he
          simp only [putOrderSpec, hpc, Function.update_same]
          exact ⟨trivial, trivial, trivial, trivial, trivial, trivial, trivial⟩
        · exact absurd (Function.update_noteq (Ne.symm he) _ _) hmv
    | pUnlock i0 r hi hpc =>
        rcases eq_or_ne i0 i with he | he
        · subst he
          simp only [putOrderSpec, hpc, Function.update_same]
          exact ⟨trivial, trivial, trivial, trivial, trivial, trivial, trivial⟩
        · exact absurd (Function.update_noteq (Ne.symm he) _ _) hmv
    | pPostFull i0 r hi hpc =>
        rcases eq_or_ne i0 i with he | he
        · subst he
          simp only [putOrderSpec, hpc, Function.update_same]
          exact ⟨trivial, trivial, trivial, trivial, trivial, trivial, trivial⟩
        · exact absurd (Function.update_noteq (Ne.symm he) _ _) hmv
    | cWaitFull j0 hj hpc hful => exact absurd rfl hmv
    | cLock j0 hj hpc hm => exact absurd rfl hmv
    | cRead j0 hj hpc => exact absurd rfl hmv
    | cUnlock j0 v hj hpc => exact absurd rfl hmv
    | cPostEmpty j0 v hj hpc => exact absurd rfl hmv
  · intro P s s' j hstep hmv
    cases hstep with
    | pProduce i0 v r hi hpc hr => exact absurd rfl hmv
    | pWaitEmpty i0 v r hi hpc hemp => exact absurd rfl hmv
    | pLock i0 v r hi hpc hm => exact absurd rfl hmv
    | pWrite i0 v r hi hpc => exact absurd rfl hmv
    | pUnlock i0 r hi hpc => exact absurd rfl hmv
    | pPostFull i0 r hi hpc => exact absurd rfl hmv
    | cWaitFull j0 hj hpc hful =>
        rcases eq_or_ne j0 j with he | he
        · subst he
          simp only [takeOrderSpec, hpc, Function.update_same]
          exact ⟨trivial, hful, by omega, trivial, trivial, trivial, trivial, trivial⟩
        · exact absurd (Function.update_noteq (Ne.symm he) _ _) hmv
    | cLock j0 hj hpc hm =>
        rcases eq_or_ne j0 j with he | he
        · subst he
          simp only [takeOrderSpec, hpc, Function.update_same]
          exact ⟨trivial, hm, trivial, trivial, trivial, trivial, trivial, trivial⟩
        · exact absurd (Function.update_noteq (Ne.symm he) _ _) hmv
    | cRead j0 hj hpc =>
        rcases eq_or_ne j0 j with he | he
        · subst he
          simp only [takeOrderSpec, hpc, Function.update_same]
          exact ⟨trivial, trivial, trivial, trivial, trivial, trivial, trivial⟩
        · exact absurd (Function.update_noteq (Ne.symm he) _ _) hmv
    | cUnlock j0 v hj hpc =>
        rcases eq_or_ne j0 j with he | he
        · subst he
          simp only [takeOrderSpec, hpc, Function.update_same]
          exact ⟨trivial, trivial, trivial, trivial, trivial, trivial, trivial⟩
        · exact absurd (Function.update_noteq (Ne.symm he) _ _) hmv
    | cPostEmpty j0 v hj hpc =>
        rcases eq_or_ne j0 j with he | he
        · subst he
          simp only [takeOrderSpec, hpc, Function.update_same]
          exact ⟨trivial, trivial, trivial, trivial, trivial, trivial, trivial⟩
        · exact absurd (Function.update_noteq (Ne.symm he) _ _) hmv

end Chan

namespace Chan

/-- C6 (amended): in every reachable state the two semaphore counts and the
number of in-flight operations add up to the capacity:
`emptySlots + fullSlots + inflight = C`.  In particular
`emptySlots + fullSlots = C` exactly when no put or take is between its
semaphore decrement and its semaphore increment. -/
theorem sem_sum_invariant (P : Params) (s : Config) (h : Reachable P s) :
    s.empty + s.full + inflight P s = P.cap := by
  induction h with
  | refl => simp [init, inflight, pInflight, cInflight]
  | tail hsteps hstep ih =>
      rename_i s1 s2
      cases hstep with
      | pProduce i0 v r hi hpc hr =>
          have hsum := sum_update_pInflight hi s1.prod { pc := PPc.hasItem v, rem := r }
          rw [hpc] at hsum
          rw [show pInflight ({ pc := PPc.idle, rem := r } : PState).pc = 0 from rfl,
              show pInflight ({ pc := PPc.hasItem v, rem := r } : PState).pc = 0 from rfl] at hsum
          simp only [inflight] at ih ⊢
          omega
      | pWaitEmpty i0 v r hi hpc hemp =>
          have hsum := sum_update_pInflight hi s1.prod { pc := PPc.waited v, rem := r }
          rw [hpc] at hsum
          rw [show pInflight ({ pc := PPc.hasItem v, rem := r } : PState).pc = 0 from rfl,
              show pInflight ({ pc := PPc.waited v, rem := r } : PState).pc = 1 from rfl] at hsum
          simp only [inflight] at ih ⊢
          omega
      | pLock i0 v r hi hpc hm =>
          have hsum := sum_update_pInflight hi s1.prod { pc := PPc.inCS v, rem := r }
          rw [hpc] at hsum
          rw [show pInflight ({ pc := PPc.waited v, rem := r } : PState).pc = 1 from rfl,
              show pInflight ({ pc := PPc.inCS v, rem := r } : PState).pc = 1 from rfl] at hsum
          simp only [inflight] at ih ⊢
          omega
      | pWrite i0 v r hi hpc =>
          have hsum := sum_update_pInflight hi s1.prod { pc := PPc.written, rem := r }
          rw [hpc] at hsum
          rw [show pInflight ({ pc := PPc.inCS v, rem := r } : PState).pc = 1 from rfl,
              show pInflight ({ pc := PPc.written, rem := r } : PState).pc = 1 from rfl] at hsum
          simp only [inflight] at ih ⊢
          omega
      | pUnlock i0 r hi hpc =>
          have hsum := sum_update_pInflight hi s1.prod { pc := PPc.signal, rem := r }
          rw [hpc] at hsum
          rw [show pInflight ({ pc := PPc.written, rem := r } : PState).pc = 1 from rfl,
              show pInflight ({ pc := PPc.signal, rem := r } : PState).pc = 1 from rfl] at hsum
          simp only [inflight] at ih ⊢
          omega
      | pPostFull i0 r hi hpc =>
          have hsum := sum_update_pInflight hi s1.prod { pc := PPc.idle, rem := r - 1 }
          rw [hpc] at hsum
          rw [show pInflight ({ pc := PPc.signal, rem := r } : PState).pc = 1 from rfl,
              show pInflight ({ pc := PPc.idle, rem := r - 1 } : PState).pc = 0 from rfl] at hsum
          simp only [inflight] at ih ⊢
          omega
      | cWaitFull j0 hj hpc hful =>
          have hsum := sum_update_cInflight hj s1.cons (CPc.waited)
          rw [hpc] at hsum
          rw [show cInflight (CPc.idle) = 0 from rfl,
              show cInflight (CPc.waited) = 1 from rfl] at hsum
          simp only [inflight] at ih ⊢
          omega
      | cLock j0 hj hpc hm =>
          have hsum := sum_update_cInflight hj s1.cons (CPc.inCS)
          rw [hpc] at hsum
          rw [show cInflight (CPc.waited) = 1 from rfl,
              show cInflight (CPc.inCS) = 1 from rfl] at hsum
          simp only [inflight] at ih ⊢
          omega
      | cRead j0 hj hpc =>
          have hsum := sum_update_cInflight hj s1.cons (CPc.gotItem (s1.buf s1.outI))
          rw [hpc] at hsum
          rw [show cInflight (CPc.inCS) = 1 from rfl,
              show cInflight (CPc.gotItem (s1.buf s1.outI)) = 1 from rfl] at hsum
          simp only [inflight] at ih ⊢
          omega
      | cUnlock j0 v hj hpc =>
          have hsum := sum_update_cInflight hj s1.cons (CPc.signal v)
          rw [hpc] at hsum
          rw [show cInflight (CPc.gotItem v) = 1 from rfl,
              show cInflight (CPc.signal v) = 1 from rfl] at hsum
          simp only [inflight] at ih ⊢
          omega
      | cPostEmpty j0 v hj hpc =>
          have hsum := sum_update_cInflight hj s1.cons (CPc.idle)
          rw [hpc] at hsum
          rw [show cInflight (CPc.signal v) = 1 from rfl,
              show cInflight (CPc.idle) = 0 from rfl] at hsum
          simp only [inflight] at ih ⊢
          omega

/-- Witness for the amended invariant at a concrete reachable state. -/
theorem sem_sum_invariant_witness :
    Reachable { nprod := 1, ncons := 1, cap := 1, items := 1 }
        (init { nprod := 1, ncons := 1, cap := 1, items := 1 }) ∧
      (init { nprod := 1, ncons := 1, cap := 1, items := 1 }).empty +
          (init { nprod := 1, ncons := 1, cap := 1, items := 1 }).full +
          inflight { nprod := 1, ncons := 1, cap := 1, items := 1 }
            (init { nprod := 1, ncons := 1, cap := 1, items := 1 }) = 1 :=
  ⟨Relation.ReflTransGen.refl,
    sem_sum_invariant { nprod := 1, ncons := 1, cap := 1, items := 1 } _
      Relation.ReflTransGen.refl⟩

/-- C6 as stated is false: the state in the middle of a put — after the
`sem_wait(&empty_slots)` and before the `sem_post(&full_slots)` — is
reachable, and there `fullSlots + emptySlots = 0 ≠ 1 = C`. -/
theorem sem_sum_midput_counterexample :
    Reachable cexParams cexMid2 ∧ cexMid2.empty + cexMid2.full ≠ cexParams.cap := by
  constructor
  · have h1 : Step cexParams (init cexParams) cexMid1 :=
      Step.pProduce (init cexParams) 0 5 1 (by decide) rfl (by decide)
    have h2 : Step cexParams cexMid1 cexMid2 :=
      Step.pWaitEmpty cexMid1 0 5 1 (by decide) (by
        simp [cexMid1, init, Function.update_same]) (by decide)
    exact Relation.ReflTransGen.tail (Relation.ReflTransGen.tail
      Relation.ReflTransGen.refl h1) h2
  · decide

end Chan

namespace Chan

/-- C8 as stated is false: a run invoked with the correct number of CLI
arguments but capacity 0 passes the only construction-time check
(producer_consumer.c line 94 checks `argc != 5` and nothing else), worker
threads are created, and a producer executes a runtime operation under the
invalid configuration. -/
theorem invalid_config_counterexample :
    Cli.chanArgsOk 5 = true ∧ zeroCapParams.cap = 0 ∧
      Step zeroCapParams (init zeroCapParams) zeroCapAfter :=
  ⟨rfl, rfl, Step.pProduce (init zeroCapParams) 0 7 1 (by decide) rfl (by decide)⟩

/-- C8 (amended): the only construction-time validation in any of the three
programs is of the argument count — producer_consumer.c aborts before
creating any thread iff argc ≠ 5, dining_philosophers.c iff argc ≠ 3,
tsqueue.c iff argc ≠ 4; non-positive capacities or counts are not rejected,
and worker threads start and run under such configurations (capacity 0
shown). -/
theorem cli_validation_only_argc :
    (∀ argc : Nat, Cli.chanArgsOk argc = true ↔ argc = 5) ∧
    (∀ argc : Nat, Cli.ringArgsOk argc = true ↔ argc = 3) ∧
    (∀ argc : Nat, Cli.queueArgsOk argc = true ↔ argc = 4) ∧
    Step zeroCapParams (init zeroCapParams) zeroCapAfter := by
  refine ⟨?_, ?_, ?_, Step.pProduce (init zeroCapParams) 0 7 1 (by decide) rfl (by decide)⟩
  · intro argc; simp [Cli.chanArgsOk]
  · intro argc; simp [Cli.ringArgsOk]
  · intro argc; simp [Cli.queueArgsOk]

end Chan

namespace Ring

theorem rightF_lt {N : Nat} (hN : 0 < N) (a : Nat) : rightF N a < N :=
  Nat.mod_lt _ hN

theorem left_ne_right {N a : Nat} (hN : 2 ≤ N) (ha : a < N) :
    leftF a ≠ rightF N a := by
  unfold leftF rightF
  rcases Nat.lt_or_ge (a + 1) N with h | h
  · rw [Nat.mod_eq_of_lt h]; omega
  · have ha1 : a + 1 = N := by omega
    rw [ha1, Nat.mod_self]; omega

theorem fork_cases (N a : Nat) :
    (fork1 N a = leftF a ∧ fork2 N a = rightF N a) ∨
      (fork1 N a = rightF N a ∧ fork2 N a = leftF a) := by
  unfold fork1 fork2
  split
  · exact Or.inl ⟨rfl, rfl⟩
  · exact Or.inr ⟨rfl, rfl⟩

theorem fork1_lt_fork2 {N a : Nat} (hN : 2 ≤ N) (ha : a < N) :
    fork1 N a < fork2 N a := by
  have hne := left_ne_right hN ha
  unfold fork1 fork2
  split <;> omega

theorem fork1_eq_min (N a : Nat) :
    fork1 N a = min (leftF a) (rightF N a) := by
  unfold fork1
  rw [Nat.min_def]
  split <;> split <;> omega

theorem fork2_eq_max (N a : Nat) :
    fork2 N a = max (leftF a) (rightF N a) := by
  unfold fork2
  rw [Nat.max_def]
  split <;> split <;> omega

theorem fork1_lt_N {N a : Nat} (hN : 0 < N) (ha : a < N) : fork1 N a < N := by
  unfold fork1 leftF
  split
  · exact ha
  · exact rightF_lt hN a

theorem fork2_lt_N {N a : Nat} (hN : 0 < N) (ha : a < N) : fork2 N a < N := by
  unfold fork2 leftF
  split
  · exact rightF_lt hN a
  · exact ha

/-- `sum_update_range` specialised to the ticket count. -/
theorem sum_update_ticket {n i : Nat} (hi : i < n) (f : Nat → Agent) (v : Agent) :
    ticketHeld (f i).pc + ∑ k ∈ Finset.range n, ticketHeld (Function.update f i v k).pc =
      ticketHeld v.pc + ∑ k ∈ Finset.range n, ticketHeld (f k).pc := by
  simpa using sum_update_range hi f (fun g => ticketHeld g.pc) v

theorem inv_init (N cycles : Nat) : Inv N cycles (init N cycles) := by
  constructor
  · have hz : ∀ a ∈ Finset.range N, ticketHeld ((init N cycles).ag a).pc = 0 := by
      intro a _
      simp only [init]
      split <;> rfl
    unfold admitted
    rw [Finset.sum_congr rfl hz]
    simp [init]
  · intro f b h
    simp [init] at h
  · intro b hb f hh
    revert hh
    simp only [init, HoldsF]
    split <;> simp
  · intro a ha hpc
    simp only [init] at hpc ⊢
    rcases Nat.eq_zero_or_pos cycles with h0 | h0
    · simp [h0] at hpc
    · exact h0

end Ring

namespace Ring

/-- Fork-ownership invariants are preserved by a step that only changes
agent `a`'s program counter to one with the same fork holdings. -/
theorem holds_preserved_ag {N : Nat} {s : Config} {a : Nat} {g : Agent}
    (how : ∀ f b, s.forks f = some b → b < N ∧ HoldsF N b (s.ag b).pc f)
    (hho : ∀ b, b < N → ∀ f, HoldsF N b (s.ag b).pc f → s.forks f = some b)
    (hequiv : ∀ f, HoldsF N a g.pc f ↔ HoldsF N a (s.ag a).pc f) :
    (∀ f b, s.forks f = some b →
        b < N ∧ HoldsF N b ((Function.update s.ag a g) b).pc f) ∧
      (∀ b, b < N → ∀ f, HoldsF N b ((Function.update s.ag a g) b).pc f →
        s.forks f = some b) := by
  constructor
  · intro f b h
    obtain ⟨hbN, hh⟩ := how f b h
    refine ⟨hbN, ?_⟩
    rcases eq_or_ne b a with rfl | hba
    · rw [Function.update_same]; exact (hequiv f).mpr hh
    · rw [Function.update_noteq hba]; exact hh
  · intro b hb f hh
    rcases eq_or_ne b a with rfl | hba
    · rw [Function.update_same] at hh
      exact hho b hb f ((hequiv f).mp hh)
    · rw [Function.update_noteq hba] at hh
      exact hho b hb f hh

/-- The cycle-bound invariant is preserved by updating agent `a`. -/
theorem cyc_preserved_ag {N cycles : Nat} {s : Config} {a : Nat} {g : Agent}
    (hcy : ∀ b, b < N → (s.ag b).pc ≠ .done → (s.ag b).cyc < cycles)
    (hg : g.pc ≠ .done → g.cyc < cycles) :
    ∀ b, b < N → ((Function.update s.ag a g) b).pc ≠ .done →
      ((Function.update s.ag a g) b).cyc < cycles := by
  intro b hb hbpc
  rcases eq_or_ne b a with rfl | hba
  · rw [Function.update_same] at hbpc ⊢; exact hg hbpc
  · rw [Function.update_noteq hba] at hbpc ⊢; exact hcy b hb hbpc

/-- The invariant is preserved by every step of the ring. -/
theorem inv_step {N cycles : Nat} (hN : 2 ≤ N) {s s' : Config}
    (hinv : Inv N cycles s) (hstep : Step N cycles s s') : Inv N cycles s' := by
  obtain ⟨hw, how, hho, hcy⟩ := hinv
  cases hstep with
  | think a c ha hpc =>
      have hsum := sum_update_ticket ha s.ag { pc := PC.waitG, cyc := c }
      rw [hpc] at hsum
      rw [show ticketHeld ({ pc := PC.think, cyc := c } : Agent).pc = 0 from rfl,
          show ticketHeld ({ pc := PC.waitG, cyc := c } : Agent).pc = 0 from rfl] at hsum
      have hpair := holds_preserved_ag (g := { pc := PC.waitG, cyc := c }) how hho
        (by intro f; rw [hpc]; simp [HoldsF])
      refine ⟨?_, hpair.1, hpair.2, ?_⟩
      · simp only [admitted] at hw ⊢; omega
      · exact cyc_preserved_ag hcy (by
          intro _
          have h0 := hcy a ha (by rw [hpc]; simp)
          rw [hpc] at h0
          simpa using h0)
  | waitG a c ha hpc hwpos =>
      have hsum := sum_update_ticket ha s.ag { pc := PC.lock1, cyc := c }
      rw [hpc] at hsum
      rw [show ticketHeld ({ pc := PC.waitG, cyc := c } : Agent).pc = 0 from rfl,
          show ticketHeld ({ pc := PC.lock1, cyc := c } : Agent).pc = 1 from rfl] at hsum
      have hpair := holds_preserved_ag (g := { pc := PC.lock1, cyc := c }) how hho
        (by intro f; rw [hpc]; simp [HoldsF])
      refine ⟨?_, hpair.1, hpair.2, ?_⟩
      · simp only [admitted] at hw ⊢; omega
      · exact cyc_preserved_ag hcy (by
          intro _
          have h0 := hcy a ha (by rw [hpc]; simp)
          rw [hpc] at h0
          simpa using h0)
  | eatSt a c ha hpc =>
      have hsum := sum_update_ticket ha s.ag { pc := PC.rel1, cyc := c }
      rw [hpc] at hsum
      rw [show ticketHeld ({ pc := PC.eatSt, cyc := c } : Agent).pc = 1 from rfl,
          show ticketHeld ({ pc := PC.rel1, cyc := c } : Agent).pc = 1 from rfl] at hsum
      have hpair := holds_preserved_ag (g := { pc := PC.rel1, cyc := c }) how hho
        (by intro f; rw [hpc]; simp [HoldsF])
      refine ⟨?_, hpair.1, hpair.2, ?_⟩
      · simp only [admitted] at hw ⊢; omega
      · exact cyc_preserved_ag hcy (by
          intro _
          have h0 := hcy a ha (by rw [hpc]; simp)
          rw [hpc] at h0
          simpa using h0)
  | post a c ha hpc =>
      by_cases hc : c + 1 < cycles
      · rw [if_pos hc]
        have hsum := sum_update_ticket ha s.ag { pc := PC.think, cyc := c + 1 }
        rw [hpc] at hsum
        rw [show ticketHeld ({ pc := PC.post, cyc := c } : Agent).pc = 1 from rfl,
            show ticketHeld ({ pc := PC.think, cyc := c + 1 } : Agent).pc = 0 from rfl] at hsum
        have hpair := holds_preserved_ag (g := { pc := PC.think, cyc := c + 1 }) how hho
          (by intro f; rw [hpc]; simp [HoldsF])
        refine ⟨?_, hpair.1, hpair.2, ?_⟩
        · simp only [admitted] at hw ⊢; omega
        · exact cyc_preserved_ag hcy (by intro _; simpa using hc)
      · rw [if_neg hc]
        have hsum := sum_update_ticket ha s.ag { pc := PC.done, cyc := c + 1 }
        rw [hpc] at hsum
        rw [show ticketHeld ({ pc := PC.post, cyc := c } : Agent).pc = 1 from rfl,
            show ticketHeld ({ pc := PC.done, cyc := c + 1 } : Agent).pc = 0 from rfl] at hsum
        have hpair := holds_preserved_ag (g := { pc := PC.done, cyc := c + 1 }) how hho
          (by intro f; rw [hpc]; simp [HoldsF])
        refine ⟨?_, hpair.1, hpair.2, ?_⟩
        · simp only [admitted] at hw ⊢; omega
        · exact cyc_preserved_ag hcy (by intro h0; exact absurd rfl h0)
  | lock1 a c ha hpc hfree =>
      have hsum := sum_update_ticket ha s.ag { pc := PC.lock2, cyc := c }
      rw [hpc] at hsum
      rw [show ticketHeld ({ pc := PC.lock1, cyc := c } : Agent).pc = 1 from rfl,
          show ticketHeld ({ pc := PC.lock2, cyc := c } : Agent).pc = 1 from rfl] at hsum
      refine ⟨?_, ?_, ?_, ?_⟩
      · simp only [admitted] at hw ⊢; omega
      · intro f b h
        dsimp only at h ⊢
        by_cases hf : f = fork1 N a
        · subst hf
          rw [Function.update_same] at h
          have hab : a = b := by simpa using h
          subst hab
          refine ⟨ha, ?_⟩
          rw [Function.update_same]
          exact Or.inl ⟨rfl, Or.inl rfl⟩
        · rw [Function.update_noteq hf] at h
          obtain ⟨hbN, hh⟩ := how f b h
          refine ⟨hbN, ?_⟩
          rcases eq_or_ne b a with rfl | hba
          · rw [hpc] at hh; simp [HoldsF] at hh
          · rw [Function.update_noteq hba]; exact hh
      · intro b hb f hh
        dsimp only at hh ⊢
        rcases eq_or_ne b a with rfl | hba
        · rw [Function.update_same] at hh
          simp [HoldsF] at hh
          subst hh
          rw [Function.update_same]
        · rw [Function.update_noteq hba] at hh
          have hf := hho b hb f hh
          have hne : f ≠ fork1 N a := by
            intro heq; rw [heq, hfree] at hf; exact Option.noConfusion hf
          rw [Function.update_noteq hne]
          exact hf
      · exact cyc_preserved_ag hcy (by
          intro _
          have h0 := hcy a ha (by rw [hpc]; simp)
          rw [hpc] at h0
          simpa using h0)
  | lock2 a c ha hpc hfree =>
      have hf12 : fork1 N a ≠ fork2 N a := Nat.ne_of_lt (fork1_lt_fork2 hN ha)
      have hsum := sum_update_ticket ha s.ag { pc := PC.eatSt, cyc := c }
      rw [hpc] at hsum
      rw [show ticketHeld ({ pc := PC.lock2, cyc := c } : Agent).pc = 1 from rfl,
          show ticketHeld ({ pc := PC.eatSt, cyc := c } : Agent).pc = 1 from rfl] at hsum
      refine ⟨?_, ?_, ?_, ?_⟩
      · simp only [admitted] at hw ⊢; omega
      · intro f b h
        dsimp only at h ⊢
        by_cases hf : f = fork2 N a
        · subst hf
          rw [Function.update_same] at h
          have hab : a = b := by simpa using h
          subst hab
          refine ⟨ha, ?_⟩
          rw [Function.update_same]
          exact Or.inr (Or.inl ⟨rfl, Or.inl rfl⟩)
        · rw [Function.update_noteq hf] at h
          obtain ⟨hbN, hh⟩ := how f b h
          refine ⟨hbN, ?_⟩
          rcases eq_or_ne b a with rfl | hba
          · rw [hpc] at hh; simp [HoldsF] at hh
            subst hh
            rw [Function.update_same]
            exact Or.inl ⟨rfl, Or.inr (Or.inl rfl)⟩
          · rw [Function.update_noteq hba]; exact hh
      · intro b hb f hh
        dsimp only at hh ⊢
        rcases eq_or_ne b a with rfl | hba
        · rw [Function.update_same] at hh
          simp [HoldsF] at hh
          rcases hh with rfl | rfl
          · rw [Function.update_noteq hf12]
            exact hho b hb (fork1 N b) (by rw [hpc]; exact Or.inl ⟨rfl, Or.inl rfl⟩)
          · rw [Function.update_same]
        · rw [Function.update_noteq hba] at hh
          have hf := hho b hb f hh
          have hne : f ≠ fork2 N a := by
            intro heq; rw [heq, hfree] at hf; exact Option.noConfusion hf
          rw [Function.update_noteq hne]
          exact hf
      · exact cyc_preserved_ag hcy (by
          intro _
          have h0 := hcy a ha (by rw [hpc]; simp)
          rw [hpc] at h0
          simpa using h0)
  | rel1 a c ha hpc =>
      have hlr : leftF a ≠ rightF N a := left_ne_right hN ha
      have hlhold : HoldsF N a PC.rel1 (leftF a) := by
        rcases fork_cases N a with ⟨h1, h2⟩ | ⟨h1, h2⟩
        · exact Or.inl ⟨h1.symm, Or.inr (Or.inr rfl)⟩
        · exact Or.inr (Or.inl ⟨h2.symm, Or.inr rfl⟩)
      have hrhold : HoldsF N a PC.rel1 (rightF N a) := by
        rcases fork_cases N a with ⟨h1, h2⟩ | ⟨h1, h2⟩
        · exact Or.inr (Or.inl ⟨h2.symm, Or.inr rfl⟩)
        · exact Or.inl ⟨h1.symm, Or.inr (Or.inr rfl)⟩
      have hfl : s.forks (leftF a) = some a :=
        hho a ha (leftF a) (by rw [hpc]; exact hlhold)
      have hfr : s.forks (rightF N a) = some a :=
        hho a ha (rightF N a) (by rw [hpc]; exact hrhold)
      have hsum := sum_update_ticket ha s.ag { pc := PC.rel2, cyc := c }
      rw [hpc] at hsum
      rw [show ticketHeld ({ pc := PC.rel1, cyc := c } : Agent).pc = 1 from rfl,
          show ticketHeld ({ pc := PC.rel2, cyc := c } : Agent).pc = 1 from rfl] at hsum
      refine ⟨?_, ?_, ?_, ?_⟩
      · simp only [admitted] at hw ⊢; omega
      · intro f b h
        dsimp only at h ⊢
        by_cases hf : f = leftF a
        · rw [hf] at h
          rw [Function.update_same] at h
          exact Option.noConfusion h
        · rw [Function.update_noteq hf] at h
          obtain ⟨hbN, hh⟩ := how f b h
          refine ⟨hbN, ?_⟩
          rcases eq_or_ne b a with rfl | hba
          · rw [hpc] at hh; simp [HoldsF] at hh
            have hfr' : f = rightF N b := by
              rcases fork_cases N b with ⟨h1, h2⟩ | ⟨h1, h2⟩ <;>
                rcases hh with h3 | h3 <;> omega
            subst hfr'
            rw [Function.update_same]
            exact Or.inr (Or.inr ⟨rfl, rfl⟩)
          · rw [Function.update_noteq hba]; exact hh
      · intro b hb f hh
        dsimp only at hh ⊢
        rcases eq_or_ne b a with rfl | hba
        · rw [Function.update_same] at hh
          simp [HoldsF] at hh
          subst hh
          rw [Function.update_noteq (Ne.symm hlr)]
          exact hfr
        · rw [Function.update_noteq hba] at hh
          have hf := hho b hb f hh
          have hne : f ≠ leftF a := by
            intro heq
            rw [heq, hfl] at hf
            have : a = b := by simpa using hf
            exact hba this.symm
          rw [Function.update_noteq hne]
          exact hf
      · exact cyc_preserved_ag hcy (by
          intro _
          have h0 := hcy a ha (by rw [hpc]; simp)
          rw [hpc] at h0
          simpa using h0)
  | rel2 a c ha hpc =>
      have hfr : s.forks (rightF N a) = some a :=
        hho a ha (rightF N a) (by rw [hpc]; exact Or.inr (Or.inr ⟨rfl, rfl⟩))
      have hsum := sum_update_ticket ha s.ag { pc := PC.post, cyc := c }
      rw [hpc] at hsum
      rw [show ticketHeld ({ pc := PC.rel2, cyc := c } : Agent).pc = 1 from rfl,
          show ticketHeld ({ pc := PC.post, cyc := c } : Agent).pc = 1 from rfl] at hsum
      refine ⟨?_, ?_, ?_, ?_⟩
      · simp only [admitted] at hw ⊢; omega
      · intro f b h
        dsimp only at h ⊢
        by_cases hf : f = rightF N a
        · subst hf
          rw [Function.update_same] at h
          exact Option.noConfusion h
        · rw [Function.update_noteq hf] at h
          obtain ⟨hbN, hh⟩ := how f b h
          refine ⟨hbN, ?_⟩
          rcases eq_or_ne b a with rfl | hba
          · rw [hpc] at hh; simp [HoldsF] at hh
            exact absurd hh hf
          · rw [Function.update_noteq hba]; exact hh
      · intro b hb f hh
        dsimp only at hh ⊢
        rcases eq_or_ne b a with rfl | hba
        · rw [Function.update_same] at hh
          simp [HoldsF] at hh
        · rw [Function.update_noteq hba] at hh
          have hf := hho b hb f hh
          have hne : f ≠ rightF N a := by
            intro heq
            rw [heq, hfr] at hf
            have : a = b := by simpa using hf
            exact hba this.symm
          rw [Function.update_noteq hne]
          exact hf
      · exact cyc_preserved_ag hcy (by
          intro _
          have h0 := hcy a ha (by rw [hpc]; simp)
          rw [hpc] at h0
          simpa using h0)

/-- The invariant holds in every reachable state. -/
theorem inv_reachable {N cycles : Nat} (hN : 2 ≤ N) {s : Config}
    (h : Reachable N cycles s) : Inv N cycles s := by
  induction h with
  | refl => exact inv_init N cycles
  | tail hsteps hstep ih => exact inv_step hN ih hstep

end Ring

namespace Ring

/-- C3: every philosopher locks the lower-indexed of its two forks before
the higher-indexed one: the first fork locked is `min(left, right)`, the
second is `max(left, right)`, the first is strictly lower, for the
wrap-around philosopher `id = N − 1` the right fork is the lower-indexed
one, and whenever a philosopher is about to lock its second fork it
already holds its first (lower-indexed) fork. -/
theorem ordered_acquisition (N a cycles : Nat) (hN : 2 ≤ N) (ha : a < N) :
    fork1 N a = min (leftF a) (rightF N a) ∧
    fork2 N a = max (leftF a) (rightF N a) ∧
    fork1 N a < fork2 N a ∧
    (a = N - 1 → rightF N a < leftF a) ∧
    (∀ s : Config, Reachable N cycles s → (s.ag a).pc = PC.lock2 →
        s.forks (fork1 N a) = some a) := by
  refine ⟨fork1_eq_min N a, fork2_eq_max N a, fork1_lt_fork2 hN ha, ?_, ?_⟩
  · intro h
    subst h
    unfold leftF rightF
    have hN1 : N - 1 + 1 = N := by omega
    rw [hN1, Nat.mod_self]
    omega
  · intro s hr hpc
    have hinv := inv_reachable hN hr
    exact hinv.holds_owner a ha (fork1 N a) (by rw [hpc]; exact Or.inl ⟨rfl, Or.inl rfl⟩)

/-- Witness for C3 at the wrap-around philosopher of a 5-agent ring. -/
theorem ordered_acquisition_witness :
    2 ≤ 5 ∧ 4 < 5 ∧
      (fork1 5 4 = min (leftF 4) (rightF 5 4) ∧
        fork2 5 4 = max (leftF 4) (rightF 5 4) ∧
        fork1 5 4 < fork2 5 4 ∧
        (4 = 5 - 1 → rightF 5 4 < leftF 4) ∧
        (∀ s : Config, Reachable 5 2 s → (s.ag 4).pc = PC.lock2 →
            s.forks (fork1 5 4) = some 4)) :=
  ⟨by decide, by decide, ordered_acquisition 5 4 2 (by decide) (by decide)⟩

/-- C4: the admission gate is created with initial count N−1
(`sem_init(&waiter, 0, num_philosophers - 1)`), a fork can only become
locked by an agent that already holds a gate ticket, the gate count is only
ever incremented by an agent at its `sem_post` — at which point it holds no
fork any more — and in every reachable state at most N−1 agents are inside
the acquisition phase. -/
theorem admission_gate (N cycles : Nat) (hN : 2 ≤ N) :
    (init N cycles).waiter = N - 1 ∧
    (∀ s s' : Config, Step N cycles s s' →
        ∀ f b, s.forks f = none → s'.forks f = some b →
          ticketHeld (s.ag b).pc = 1) ∧
    (∀ s s' : Config, Reachable N cycles s → Step N cycles s s' →
        s'.waiter = s.waiter + 1 →
        ∃ a, a < N ∧ (s.ag a).pc = PC.post ∧ ∀ f, s.forks f ≠ some a) ∧
    (∀ s : Config, Reachable N cycles s → admitted N s ≤ N - 1) := by
  refine ⟨rfl, ?_, ?_, ?_⟩
  · intro s s' hstep f b hnone hsome
    cases hstep with
    | think a c ha hpc => rw [hnone] at hsome; exact Option.noConfusion hsome
    | waitG a c ha hpc hwpos => rw [hnone] at hsome; exact Option.noConfusion hsome
    | lock1 a c ha hpc hfree =>
        dsimp only at hsome
        by_cases hf : f = fork1 N a
        · rw [hf, Function.update_same] at hsome
          have hab : a = b := by simpa using hsome
          subst hab
          rw [hpc]
          rfl
        · rw [Function.update_noteq hf, hnone] at hsome
          exact Option.noConfusion hsome
    | lock2 a c ha hpc hfree =>
        dsimp only at hsome
        by_cases hf : f = fork2 N a
        · rw [hf, Function.update_same] at hsome
          have hab : a = b := by simpa using hsome
          subst hab
          rw [hpc]
          rfl
        · rw [Function.update_noteq hf, hnone] at hsome
          exact Option.noConfusion hsome
    | eatSt a c ha hpc => rw [hnone] at hsome; exact Option.noConfusion hsome
    | rel1 a c ha hpc =>
        dsimp only at hsome
        by_cases hf : f = leftF a
        · rw [hf, Function.update_same] at hsome
          exact Option.noConfusion hsome
        · rw [Function.update_noteq hf, hnone] at hsome
          exact Option.noConfusion hsome
    | rel2 a c ha hpc =>
        dsimp only at hsome
        by_cases hf : f = rightF N a
        · rw [hf, Function.update_same] at hsome
          exact Option.noConfusion hsome
        · rw [Function.update_noteq hf, hnone] at hsome
          exact Option.noConfusion hsome
    | post a c ha hpc => rw [hnone] at hsome; exact Option.noConfusion hsome
  · intro s s' hr hstep hup
    have hinv := inv_reachable hN hr
    cases hstep with
    | think a c ha hpc => exact absurd hup (by dsimp only; omega)
    | waitG a c ha hpc hwpos => exact absurd hup (by dsimp only; omega)
    | lock1 a c ha hpc hfree => exact absurd hup (by dsimp only; omega)
    | lock2 a c ha hpc hfree => exact absurd hup (by dsimp only; omega)
    | eatSt a c ha hpc => exact absurd hup (by dsimp only; omega)
    | rel1 a c ha hpc => exact absurd hup (by dsimp only; omega)
    | rel2 a c ha hpc => exact absurd hup (by dsimp only; omega)
    | post a c ha hpc =>
        refine ⟨a, ha, by rw [hpc], ?_⟩
        intro f hf
        obtain ⟨_, hh⟩ := hinv.owner_holds f a hf
        rw [hpc] at hh
        simp [HoldsF] at hh
  · intro s hr
    have hinv := inv_reachable hN hr
    have := hinv.waiter_eq
    omega

/-- Witness for C4 on a concrete 5-agent ring. -/
theorem admission_gate_witness :
    2 ≤ 5 ∧
      ((init 5 2).waiter = 5 - 1 ∧
        (∀ s s' : Config, Step 5 2 s s' →
            ∀ f b, s.forks f = none → s'.forks f = some b →
              ticketHeld (s.ag b).pc = 1) ∧
        (∀ s s' : Config, Reachable 5 2 s → Step 5 2 s s' →
            s'.waiter = s.waiter + 1 →
            ∃ a, a < 5 ∧ (s.ag a).pc = PC.post ∧ ∀ f, s.forks f ≠ some a) ∧
        (∀ s : Config, Reachable 5 2 s → admitted 5 s ≤ 5 - 1)) :=
  ⟨by decide, admission_gate 5 2 (by decide)⟩

end Ring

namespace Ring

/-- `sum_update_range` specialised to the termination measure. -/
theorem sum_update_measure {n i : Nat} (hi : i < n) (cycles : Nat)
    (f : Nat → Agent) (v : Agent) :
    agMeasure cycles (f i) +
        ∑ k ∈ Finset.range n, agMeasure cycles (Function.update f i v k) =
      agMeasure cycles v + ∑ k ∈ Finset.range n, agMeasure cycles (f k) :=
  sum_update_range hi f (agMeasure cycles) v

/-- Every step of the ring strictly decreases the total remaining work. -/
theorem measure_decreases {N cycles : Nat} {s s' : Config}
    (hinv : Inv N cycles s) (hstep : Step N cycles s s') :
    sysMeasure N cycles s' < sysMeasure N cycles s := by
  obtain ⟨hw, how, hho, hcy⟩ := hinv
  cases hstep with
  | think a c ha hpc =>
      have hc : c < cycles := by
        have h0 := hcy a ha (by rw [hpc]; simp)
        rw [hpc] at h0
        exact h0
      have hsum := sum_update_measure ha cycles s.ag { pc := PC.waitG, cyc := c }
      rw [hpc] at hsum
      rw [show agMeasure cycles ({ pc := PC.think, cyc := c } : Agent) =
            (cycles - c) * 8 - 0 from rfl,
          show agMeasure cycles ({ pc := PC.waitG, cyc := c } : Agent) =
            (cycles - c) * 8 - 1 from rfl] at hsum
      simp only [sysMeasure] at hsum ⊢
      omega
  | waitG a c ha hpc hwpos =>
      have hc : c < cycles := by
        have h0 := hcy a ha (by rw [hpc]; simp)
        rw [hpc] at h0
        exact h0
      have hsum := sum_update_measure ha cycles s.ag { pc := PC.lock1, cyc := c }
      rw [hpc] at hsum
      rw [show agMeasure cycles ({ pc := PC.waitG, cyc := c } : Agent) =
            (cycles - c) * 8 - 1 from rfl,
          show agMeasure cycles ({ pc := PC.lock1, cyc := c } : Agent) =
            (cycles - c) * 8 - 2 from rfl] at hsum
      simp only [sysMeasure] at hsum ⊢
      omega
  | lock1 a c ha hpc hfree =>
      have hc : c < cycles := by
        have h0 := hcy a ha (by rw [hpc]; simp)
        rw [hpc] at h0
        exact h0
      have hsum := sum_update_measure ha cycles s.ag { pc := PC.lock2, cyc := c }
      rw [hpc] at hsum
      rw [show agMeasure cycles ({ pc := PC.lock1, cyc := c } : Agent) =
            (cycles - c) * 8 - 2 from rfl,
          show agMeasure cycles ({ pc := PC.lock2, cyc := c } : Agent) =
            (cycles - c) * 8 - 3 from rfl] at hsum
      simp only [sysMeasure] at hsum ⊢
      omega
  | lock2 a c ha hpc hfree =>
      have hc : c < cycles := by
        have h0 := hcy a ha (by rw [hpc]; simp)
        rw [hpc] at h0
        exact h0
      have hsum := sum_update_measure ha cycles s.ag { pc := PC.eatSt, cyc := c }
      rw [hpc] at hsum
      rw [show agMeasure cycles ({ pc := PC.lock2, cyc := c } : Agent) =
            (cycles - c) * 8 - 3 from rfl,
          show agMeasure cycles ({ pc := PC.eatSt, cyc := c } : Agent) =
            (cycles - c) * 8 - 4 from rfl] at hsum
      simp only [sysMeasure] at hsum ⊢
      omega
  | eatSt a c ha hpc =>
      have hc : c < cycles := by
        have h0 := hcy a ha (by rw [hpc]; simp)
        rw [hpc] at h0
        exact h0
      have hsum := sum_update_measure ha cycles s.ag { pc := PC.rel1, cyc := c }
      rw [hpc] at hsum
      rw [show agMeasure cycles ({ pc := PC.eatSt, cyc := c } : Agent) =
            (cycles - c) * 8 - 4 from rfl,
          show agMeasure cycles ({ pc := PC.rel1, cyc := c } : Agent) =
            (cycles - c) * 8 - 5 from rfl] at hsum
      simp only [sysMeasure] at hsum ⊢
      omega
  | rel1 a c ha hpc =>
      have hc : c < cycles := by
        have h0 := hcy a ha (by rw [hpc]; simp)
        rw [hpc] at h0
        exact h0
      have hsum := sum_update_measure ha cycles s.ag { pc := PC.rel2, cyc := c }
      rw [hpc] at hsum
      rw [show agMeasure cycles ({ pc := PC.rel1, cyc := c } : Agent) =
            (cycles - c) * 8 - 5 from rfl,
          show agMeasure cycles ({ pc := PC.rel2, cyc := c } : Agent) =
            (cycles - c) * 8 - 6 from rfl] at hsum
      simp only [sysMeasure] at hsum ⊢
      omega
  | rel2 a c ha hpc =>
      have hc : c < cycles := by
        have h0 := hcy a ha (by rw [hpc]; simp)
        rw [hpc] at h0
        exact h0
      have hsum := sum_update_measure ha cycles s.ag { pc := PC.post, cyc := c }
      rw [hpc] at hsum
      rw [show agMeasure cycles ({ pc := PC.rel2, cyc := c } : Agent) =
            (cycles - c) * 8 - 6 from rfl,
          show agMeasure cycles ({ pc := PC.post, cyc := c } : Agent) =
            (cycles - c) * 8 - 7 from rfl] at hsum
      simp only [sysMeasure] at hsum ⊢
      omega
  | post a c ha hpc =>
      have hc : c < cycles := by
        have h0 := hcy a ha (by rw [hpc]; simp)
        rw [hpc] at h0
        exact h0
      by_cases hcc : c + 1 < cycles
      · rw [if_pos hcc]
        have hsum := sum_update_measure ha cycles s.ag { pc := PC.think, cyc := c + 1 }
        rw [hpc] at hsum
        rw [show agMeasure cycles ({ pc := PC.post, cyc := c } : Agent) =
              (cycles - c) * 8 - 7 from rfl,
            show agMeasure cycles ({ pc := PC.think, cyc := c + 1 } : Agent) =
              (cycles - (c + 1)) * 8 - 0 from rfl] at hsum
        simp only [sysMeasure] at hsum ⊢
        omega
      · rw [if_neg hcc]
        have hsum := sum_update_measure ha cycles s.ag { pc := PC.done, cyc := c + 1 }
        rw [hpc] at hsum
        rw [show agMeasure cycles ({ pc := PC.post, cyc := c } : Agent) =
              (cycles - c) * 8 - 7 from rfl,
            show agMeasure cycles ({ pc := PC.done, cyc := c + 1 } : Agent) = 0 from rfl] at hsum
        simp only [sysMeasure] at hsum ⊢
        omega

end Ring

namespace Ring

/-- In a stuck state an agent that is not done can only be at one of the
three blocking statements: the gate wait or one of the two fork locks
(think, eat, the unlocks and the gate post are always enabled). -/
theorem stuck_pc_blocked {N cycles : Nat} {s : Config}
    (hstuck : ∀ s', ¬ Step N cycles s s') {b : Nat} (hb : b < N)
    (hbd : (s.ag b).pc ≠ PC.done) :
    (s.ag b).pc = PC.waitG ∨ (s.ag b).pc = PC.lock1 ∨ (s.ag b).pc = PC.lock2 := by
  cases hpcb : (s.ag b).pc with
  | think =>
      exact absurd (Step.think s b (s.ag b).cyc hb (by rw [← hpcb])) (hstuck _)
  | waitG => exact Or.inl rfl
  | lock1 => exact Or.inr (Or.inl rfl)
  | lock2 => exact Or.inr (Or.inr rfl)
  | eatSt =>
      exact absurd (Step.eatSt s b (s.ag b).cyc hb (by rw [← hpcb])) (hstuck _)
  | rel1 =>
      exact absurd (Step.rel1 s b (s.ag b).cyc hb (by rw [← hpcb])) (hstuck _)
  | rel2 =>
      exact absurd (Step.rel2 s b (s.ag b).cyc hb (by rw [← hpcb])) (hstuck _)
  | post =>
      exact absurd (Step.post s b (s.ag b).cyc hb (by rw [← hpcb])) (hstuck _)
  | done => exact absurd hpcb hbd

/-- In a stuck reachable state every locked fork is held by an agent that
is itself blocked on its second fork, and the fork it holds is its first. -/
theorem stuck_owner_lock2 {N cycles : Nat} (hN : 2 ≤ N) {s : Config}
    (hinv : Inv N cycles s) (hstuck : ∀ s', ¬ Step N cycles s s')
    {f b : Nat} (hf : s.forks f = some b) :
    b < N ∧ (s.ag b).pc = PC.lock2 ∧ f = fork1 N b := by
  obtain ⟨hbN, hh⟩ := hinv.owner_holds f b hf
  have hbd : (s.ag b).pc ≠ PC.done := by
    intro hd
    rw [hd] at hh
    simp [HoldsF] at hh
  rcases stuck_pc_blocked hstuck hbN hbd with h1 | h1 | h1 <;> rw [h1] at hh
  · simp [HoldsF] at hh
  · simp [HoldsF] at hh
  · refine ⟨hbN, h1, ?_⟩
    simp [HoldsF] at hh
    exact hh

/-- Deadlock freedom: in a stuck reachable state every philosopher is done. -/
theorem stuck_all_done {N cycles : Nat} (hN : 2 ≤ N) {s : Config}
    (hr : Reachable N cycles s) (hstuck : ∀ s', ¬ Step N cycles s s') :
    AllDone N s := by
  have hinv := inv_reachable hN hr
  have hlock1 : ∀ b, b < N → (s.ag b).pc = PC.lock1 →
      ∃ c, s.forks (fork1 N b) = some c := by
    intro b hb hpcb
    cases hfk : s.forks (fork1 N b) with
    | none => exact absurd (Step.lock1 s b (s.ag b).cyc hb (by rw [← hpcb]) hfk) (hstuck _)
    | some c => exact ⟨c, rfl⟩
  have hlock2 : ∀ b, b < N → (s.ag b).pc = PC.lock2 →
      ∃ c, s.forks (fork2 N b) = some c := by
    intro b hb hpcb
    cases hfk : s.forks (fork2 N b) with
    | none => exact absurd (Step.lock2 s b (s.ag b).cyc hb (by rw [← hpcb]) hfk) (hstuck _)
    | some c => exact ⟨c, rfl⟩
  have hSempty :
      ¬ ((Finset.range N).filter (fun b => (s.ag b).pc = PC.lock2)).Nonempty := by
    intro hne
    obtain ⟨m, hmS, hmax⟩ := Finset.exists_max_image _ (fun b => fork1 N b) hne
    have hmN : m < N := Finset.mem_range.mp (Finset.mem_filter.mp hmS).1
    have hmpc : (s.ag m).pc = PC.lock2 := (Finset.mem_filter.mp hmS).2
    obtain ⟨c0, hc0⟩ := hlock2 m hmN hmpc
    obtain ⟨hc0N, hc0pc, hc0f⟩ := stuck_owner_lock2 hN hinv hstuck hc0
    have hc0S : c0 ∈ (Finset.range N).filter (fun b => (s.ag b).pc = PC.lock2) :=
      Finset.mem_filter.mpr ⟨Finset.mem_range.mpr hc0N, hc0pc⟩
    have hlt : fork1 N m < fork1 N c0 := by
      rw [← hc0f]
      exact fork1_lt_fork2 hN hmN
    exact absurd (hmax c0 hc0S) (by omega)
  intro a ha
  by_contra hnd
  rcases stuck_pc_blocked hstuck ha hnd with h1 | h1 | h1
  · have hw0 : s.waiter = 0 := by
      by_contra hw
      have hpos : 0 < s.waiter := Nat.pos_of_ne_zero hw
      exact hstuck _ (Step.waitG s a (s.ag a).cyc ha (by rw [← h1]) hpos)
    have hadm : admitted N s = N - 1 := by
      have := hinv.waiter_eq
      omega
    have hpos : 0 < admitted N s := by omega
    obtain ⟨b, hbmem, hbpos⟩ : ∃ b ∈ Finset.range N, 0 < ticketHeld (s.ag b).pc := by
      by_contra hall
      push_neg at hall
      have hz : admitted N s = 0 := by
        unfold admitted
        exact Finset.sum_eq_zero (fun b hb => Nat.le_zero.mp (hall b hb))
      omega
    have hbN : b < N := Finset.mem_range.mp hbmem
    have hbd : (s.ag b).pc ≠ PC.done := by
      intro hd; rw [hd] at hbpos; simp [ticketHeld] at hbpos
    rcases stuck_pc_blocked hstuck hbN hbd with h2 | h2 | h2
    · rw [h2] at hbpos; simp [ticketHeld] at hbpos
    · obtain ⟨c0, hc0⟩ := hlock1 b hbN h2
      obtain ⟨hc0N, hc0pc, _⟩ := stuck_owner_lock2 hN hinv hstuck hc0
      exact hSempty ⟨c0, Finset.mem_filter.mpr ⟨Finset.mem_range.mpr hc0N, hc0pc⟩⟩
    · exact hSempty ⟨b, Finset.mem_filter.mpr ⟨hbmem, h2⟩⟩
  · obtain ⟨c0, hc0⟩ := hlock1 a ha h1
    obtain ⟨hc0N, hc0pc, _⟩ := stuck_owner_lock2 hN hinv hstuck hc0
    exact hSempty ⟨c0, Finset.mem_filter.mpr ⟨Finset.mem_range.mpr hc0N, hc0pc⟩⟩
  · exact hSempty ⟨a, Finset.mem_filter.mpr ⟨Finset.mem_range.mpr ha, h1⟩⟩

/-- No run of the ring is infinite: the measure strictly decreases. -/
theorem no_infinite_run {N cycles : Nat} (hN : 2 ≤ N) :
    ∀ e : Nat → Config, e 0 = init N cycles →
      ¬ (∀ i, Step N cycles (e i) (e (i + 1))) := by
  intro e h0 hstep
  have hinv : ∀ i, Inv N cycles (e i) := by
    intro i
    induction i with
    | zero => rw [h0]; exact inv_init N cycles
    | succ i ih => exact inv_step hN ih (hstep i)
  have hdec : ∀ i, sysMeasure N cycles (e (i + 1)) < sysMeasure N cycles (e i) :=
    fun i => measure_decreases (hinv i) (hstep i)
  have hle : ∀ i, sysMeasure N cycles (e i) + i ≤ sysMeasure N cycles (e 0) := by
    intro i
    induction i with
    | zero => omega
    | succ i ih =>
        have := hdec i
        omega
  have := hle (sysMeasure N cycles (e 0) + 1)
  omega

end Ring

namespace Ring

/-- C9: for every agent count N in 2..50 and cycle count ≥ 1, the ring
cannot hang: a reachable state from which no step is possible has every
philosopher in its terminal state, and no infinite run exists at all — so
every maximal execution ends with all agents having completed all their
cycles, under any scheduler. -/
theorem ring_deadlock_free (N cycles : Nat) (hN2 : 2 ≤ N) (_hN50 : N ≤ 50)
    (_hcyc : 1 ≤ cycles) :
    (∀ s : Config, Reachable N cycles s → (∀ s', ¬ Step N cycles s s') →
        AllDone N s) ∧
    (∀ e : Nat → Config, e 0 = init N cycles →
        ¬ (∀ i, Step N cycles (e i) (e (i + 1)))) :=
  ⟨fun _ hr hst => stuck_all_done hN2 hr hst, no_infinite_run hN2⟩

/-- Witness for C9 on the classic 5-philosopher, 2-cycle instance. -/
theorem ring_deadlock_free_witness :
    2 ≤ 5 ∧ 5 ≤ 50 ∧ 1 ≤ 2 ∧
      ((∀ s : Config, Reachable 5 2 s → (∀ s', ¬ Step 5 2 s s') →
          AllDone 5 s) ∧
        (∀ e : Nat → Config, e 0 = init 5 2 →
          ¬ (∀ i, Step 5 2 (e i) (e (i + 1))))) :=
  ⟨by decide, by decide, by decide, ring_deadlock_free 5 2 (by decide) (by decide) (by decide)⟩

end Ring
